import Mathlib

/-!
Verification development for the decision-tree-architect analysis core.

The definitions below are a shallow embedding of the TypeScript sources:
  * the state-constraint engine (`stateAnalysis`: `parseValue`, `applyConstraint`,
    `applyExpression`, `mergeStates`, `findPaths`, `calculateNodeState`,
    `analyzeReachability`), and
  * the model checker (`ModelChecker.tsx`: `combinations`, `evaluate`,
    `checkInvariants`, `handleRun`/`displayResults`).

JavaScript `Set<string>` values are embedded as `Finset String`; a JS `Record`
(object used as a string-keyed map, with insertion-ordered keys) is embedded as
an association list `List (String × _)` whose update operation replaces an
existing key in place and appends a fresh key at the end, exactly as object
spread plus indexed assignment behaves.  The dynamic JavaScript expression
evaluation (`new Function(...)` applied to a guard string and a variable
assignment) cannot be embedded directly; every definition that uses it is
parameterised by an evaluation oracle `String → List (String × String) →
Option Bool`, where `none` models a thrown exception and `some b` models a
normal completion whose value has truthiness `b`.
-/

namespace DTA

/-- Comparison operator recognised by the guard-narrowing parser
(`'==' | '!='` in the source). -/
inductive Op where
  | eq
  | ne
deriving DecidableEq, Repr

/-- `Variable` from `types/index.ts`: an enum-domain variable.  The `type`
field is always the literal `'enum'` and the optional description is
irrelevant to the analyses, so both are omitted. -/
structure Variable where
  id : String
  name : String
  possibleValues : List String
deriving DecidableEq, Repr

/-- A graph node as consumed by the analyses: `id` and `type`
(`'root' | 'decision' | 'leaf'`) from the React-Flow node, plus the
`data.expression`, `data.nodeId` and `data.label` payload fields (absent
payload fields are embedded as `""`, matching the JS falsiness checks). -/
structure Node where
  id : String
  type : String
  expression : String
  nodeId : String
  label : String
deriving DecidableEq, Repr

/-- A graph edge: `source`, `target` and `sourceHandle`
(`none` embeds both `null` and an absent handle). -/
structure Edge where
  id : String
  source : String
  target : String
  sourceHandle : Option String
deriving DecidableEq, Repr

/-- `Invariant` from `types/index.ts`. -/
structure Invariant where
  id : String
  name : String
  condition : String
  expectedResult : String
deriving DecidableEq, Repr

/-- `NodeState` from `stateAnalysis`: a map from variable id to the set of
currently-possible values (`VariableState.possibleValues`), embedded as an
insertion-ordered association list. -/
abbrev NodeState := List (String × Finset String)

/-- The keys of a `NodeState`, in order (`Object.keys`). -/
def stateKeys (s : NodeState) : List String := s.map Prod.fst

/-- Indexed assignment on a `NodeState` whose key is already present:
`newState[id] = {possibleValues}` replaces the entry in place. -/
def setKey (s : NodeState) (k : String) (v : Finset String) : NodeState :=
  s.map (fun p => if p.1 = k then (k, v) else p)

/-- Indexed assignment for a possibly-absent key: replaces in place when the
key exists and appends at the end otherwise (JS object insertion order). -/
def setKeyFull (s : NodeState) (k : String) (v : Finset String) : NodeState :=
  if (s.lookup k).isSome then setKey s k v else s ++ [(k, v)]

/-- `getAllValues` from `stateAnalysis`: the full declared domain of a
variable, as a set. -/
def getAllValues (v : Variable) : Finset String := v.possibleValues.toFinset

/-- JS whitespace class `\s` (ASCII part; the Unicode space characters never
occur in the inputs considered here). -/
def isJsSpace (c : Char) : Bool :=
  c = ' ' || c = '\t' || c = '\n' || c = '\r' || c = '\x0b' || c = '\x0c'

/-- `String.prototype.trim`: strip leading and trailing whitespace. -/
def trimChars (cs : List Char) : List Char :=
  ((cs.dropWhile isJsSpace).reverse.dropWhile isJsSpace).reverse

/-- `String.prototype.trim` on strings. -/
def jsTrim (s : String) : String := ⟨trimChars s.data⟩

/-- `String.prototype.split('&&')`: left-to-right, non-overlapping. -/
def splitAmpAmp : List Char → List Char → List (List Char)
  | [], acc => [acc.reverse]
  | '&' :: '&' :: rest, acc => acc.reverse :: splitAmpAmp rest []
  | c :: rest, acc => splitAmpAmp rest (c :: acc)

/-- `expression.split('&&')` on strings. -/
def splitOnAmpAmp (s : String) : List String :=
  (splitAmpAmp s.data []).map (fun cs => ⟨cs⟩)

/-- `parseValue` from `stateAnalysis`: trim, then strip one layer of matching
single or double quotes (`slice(1, -1)`). -/
def parseValue (val : String) : String :=
  let trimmed := trimChars val.data
  if (trimmed.head? = some '\'' && trimmed.getLast? = some '\'')
      || (trimmed.head? = some '"' && trimmed.getLast? = some '"') then
    ⟨(trimmed.drop 1).dropLast⟩
  else
    ⟨trimmed⟩

/-! ### The guard pattern matcher

The source finds the first match of the JavaScript regular expression
`([a-zA-Z_$][a-zA-Z0-9_$]*)\s*(==|!=)\s*(.+)` in a string: scanning left to
right, an identifier run, optional whitespace, `==` or `!=`, optional
whitespace, then a non-empty greedy capture of the remaining (non-newline)
characters.  Backtracking inside the identifier run can never produce a match
(a shortened identifier is followed by another identifier character, which can
start neither operator), so the matcher below is an exact model for inputs
whose operator is followed by at least one non-whitespace character. -/

/-- JS regex `[a-zA-Z_$]`. -/
def isIdentStart (c : Char) : Bool :=
  (c ≥ 'a' && c ≤ 'z') || (c ≥ 'A' && c ≤ 'Z') || c = '_' || c = '$'

/-- JS regex `[a-zA-Z0-9_$]`. -/
def isIdentChar (c : Char) : Bool :=
  isIdentStart c || (c ≥ '0' && c ≤ '9')

/-- JS regex `.` (any character except a line terminator). -/
def isDotChar (c : Char) : Bool :=
  !(c = '\n' || c = '\r')

/-- After the operator: skip `\s*`, then `(.+)` must capture at least one
character. -/
def matchTail (ident : List Char) (op : Op) (rest : List Char) :
    Option (String × Op × String) :=
  let value := (rest.dropWhile isJsSpace).takeWhile isDotChar
  if value.isEmpty then none else some (⟨ident⟩, op, ⟨value⟩)

/-- Try to match the regex with the match anchored at the head of `cs`. -/
def matchAt (cs : List Char) : Option (String × Op × String) :=
  match cs with
  | [] => none
  | c :: _ =>
    if isIdentStart c then
      let ident := cs.takeWhile isIdentChar
      let after := (cs.dropWhile isIdentChar).dropWhile isJsSpace
      match after with
      | '=' :: '=' :: rest => matchTail ident Op.eq rest
      | '!' :: '=' :: rest => matchTail ident Op.ne rest
      | _ => none
    else none

/-- Leftmost match of the regex in a character list (`String.prototype.match`). -/
def findEqList : List Char → Option (String × Op × String)
  | [] => none
  | c :: cs =>
    match matchAt (c :: cs) with
    | some r => some r
    | none => findEqList cs

/-- Leftmost match of `([a-zA-Z_$][a-zA-Z0-9_$]*)\s*(==|!=)\s*(.+)` in `s`. -/
def findEq (s : String) : Option (String × Op × String) :=
  findEqList s.data

/-- `String.prototype.includes` for a non-empty pattern. -/
def hasSubAux (pat : List Char) : List Char → Bool
  | [] => pat.isEmpty
  | c :: rest => pat.isPrefixOf (c :: rest) || hasSubAux pat rest

/-- `s.includes(pat)`. -/
def hasSubstr (s pat : String) : Bool :=
  hasSubAux pat.data s.data

/-- `applyConstraint` from `stateAnalysis`: narrow one variable's
possible-set by `Var == Value` or `Var != Value`. -/
def applyConstraint (state : NodeState) (variableName : String) (op : Op)
    (value : String) (vars : List Variable) : NodeState :=
  match vars.find? (fun v => v.name = variableName) with
  | none => state
  | some foundVar =>
    match state.lookup foundVar.id with
    | none => state
    | some currentValues =>
      let constraintValue := parseValue value
      let newValues : Finset String :=
        match op with
        | Op.eq =>
          if constraintValue ∈ currentValues then {constraintValue} else ∅
        | Op.ne => currentValues.erase constraintValue
      setKey state foundVar.id newValues

/-- `applyExpression` from `stateAnalysis`: on the "yes" branch split the
guard on `&&` and apply every conjunct the matcher recognises; on the "no"
branch apply the inverted single condition unless the guard contains `&&` or
`||`. -/
def applyExpression (state : NodeState) (expression : String)
    (isYesBranch : Bool) (vars : List Variable) : NodeState :=
  if jsTrim expression = "" then state
  else if isYesBranch then
    (splitOnAmpAmp expression).foldl
      (fun st part =>
        match findEq part with
        | some (varName, op, val) =>
          applyConstraint st (jsTrim varName) op val vars
        | none => st)
      state
  else
    if hasSubstr expression "&&" || hasSubstr expression "||" then state
    else
      match findEq expression with
      | some (varName, op, val) =>
        applyConstraint state (jsTrim varName)
          (match op with | Op.eq => Op.ne | Op.ne => Op.eq) val vars
      | none => state

/-- The per-variable union computed by the inner loop of `mergeStates`. -/
def unionAt (states : List NodeState) (varId : String) : Finset String :=
  states.foldl
    (fun acc s =>
      match s.lookup varId with
      | some vs => acc ∪ vs
      | none => acc)
    ∅

/-- `mergeStates` from `stateAnalysis`: per-variable union over a list of
states, keyed by the first state's keys. -/
def mergeStates (states : List NodeState) : NodeState :=
  match states with
  | [] => []
  | s0 :: _ => (stateKeys s0).map (fun varId => (varId, unionAt states varId))

/-- The universal starting state: every variable mapped to its full domain
(the initialisation loop in `calculateNodeState`). -/
def initState (vars : List Variable) : NodeState :=
  vars.foldl (fun st v => setKeyFull st v.id (getAllValues v)) []

/-- One step of the per-path walk in `calculateNodeState`: edges leaving a
decision node through the `yes`/`no` handle narrow the state, every other
edge passes it through unchanged. -/
def stepEdge (nodes : List Node) (vars : List Variable)
    (state : NodeState) (edge : Edge) : NodeState :=
  match nodes.find? (fun n => n.id = edge.source) with
  | some sourceNode =>
    if sourceNode.type = "decision" then
      if edge.sourceHandle = some "yes" || edge.sourceHandle = some "no" then
        applyExpression state sourceNode.expression
          (edge.sourceHandle = some "yes") vars
      else state
    else state
  | none => state

/-- Walk one root-to-target path, narrowing the universal state edge by edge
(the per-path loop of `calculateNodeState`). -/
def walkPath (nodes : List Node) (vars : List Variable)
    (path : List Edge) : NodeState :=
  path.foldl (stepEdge nodes vars) (initState vars)

/-- Every node id mentioned by an edge. -/
def nodeUniverse (edges : List Edge) : Finset String :=
  (edges.map (·.source) ++ edges.map (·.target)).toFinset

/-- Termination measure for the path-enumeration DFS: twice the number of
universe nodes not yet visited, plus one when the current node is still
unvisited. -/
def pathMeasure (edges : List Edge) (currentId : String)
    (visited : List String) : Nat :=
  2 * ((nodeUniverse edges).filter (fun x => x ∉ visited)).card +
    (if currentId ∈ visited then 1 else 0)

/-- The DFS of `calculateNodeState` (`findPaths` in the source): enumerate
every simple path from `currentId` to the target, where `visited` holds the
nodes already on the current path.  The JavaScript recursion terminates
because the visited set grows strictly along every recursive call; the
embedding realises the same recursion with a fuel argument, and
`findPathsAux_stable` below shows that any fuel above `pathFuel` computes the
same (fuel-independent) result, so `findPaths` is the exact function the
source computes. -/
def findPathsAux (edges : List Edge) (targetNodeId : String) :
    Nat → String → List Edge → List String → List (List Edge)
  | 0, _, _, _ => []
  | fuel + 1, currentId, currentPath, visited =>
    if currentId = targetNodeId then [currentPath]
    else
      (edges.filter (fun e => e.source = currentId)).flatMap (fun e =>
        if e.target ∈ currentId :: visited then []
        else
          findPathsAux edges targetNodeId fuel e.target
            (currentPath ++ [e]) (currentId :: visited))

/-- Fuel that the DFS can never exhaust (strictly larger than `pathMeasure`
at the initial call, which bounds the recursion depth). -/
def pathFuel (edges : List Edge) : Nat :=
  2 * (nodeUniverse edges).card + 2

/-- All simple paths from `rootId` to `targetNodeId`
(the top-level `findPaths(root.id, [], new Set())` call). -/
def findPathsFrom (edges : List Edge) (targetNodeId rootId : String) :
    List (List Edge) :=
  findPathsAux edges targetNodeId (pathFuel edges) rootId [] []

/-- The validity filter of `calculateNodeState`: every variable's
possible-set is non-empty. -/
def validState (state : NodeState) : Bool :=
  state.all (fun p => 0 < p.2.card)

/-- `calculateNodeState` from `stateAnalysis`.  `none` embeds the `null`
unreachable sentinel; `some []` embeds the bare `{}` returned when the graph
has no root. -/
def calculateNodeState (targetNodeId : String) (nodes : List Node)
    (edges : List Edge) (vars : List Variable) : Option NodeState :=
  match nodes.find? (fun n => n.type = "root") with
  | none => some []
  | some root =>
    let paths := findPathsFrom edges targetNodeId root.id
    if paths.length = 0 then
      if targetNodeId = root.id then some (initState vars)
      else none
    else
      let pathResults := paths.map (walkPath nodes vars)
      let validStates := pathResults.filter validState
      if validStates.length = 0 then none
      else some (mergeStates validStates)

/-- `analyzeReachability` from `stateAnalysis`: the set of node ids whose
state result is not the unreachable sentinel. -/
def analyzeReachability (nodes : List Node) (edges : List Edge)
    (vars : List Variable) : Finset String :=
  nodes.foldl
    (fun acc node =>
      if calculateNodeState node.id nodes edges vars ≠ none then
        insert node.id acc
      else acc)
    ∅

/-! ### The model checker (`ModelChecker.tsx`) -/

/-- The cartesian-product helper inside the `combinations` memo. -/
def cartesian (args : List (List String)) : List (List String) :=
  if args.length = 0 then []
  else
    args.foldl
      (fun acc curr => acc.flatMap (fun c => curr.map (fun n => c ++ [n])))
      [[]]

/-- `combinations`: one assignment (name-keyed record, embedded as an ordered
association list) per element of the cartesian product of the declared
domains. -/
def combinations (vars : List Variable) : List (List (String × String)) :=
  if vars.length = 0 then []
  else
    let keys := vars.map (·.name)
    let values := vars.map (·.possibleValues)
    if values.length = 0 then []
    else (cartesian values).map (fun row => keys.zip row)

/-- An evaluation oracle: the embedding of `new Function(...argNames, "return
<expr>;")(...argValues)` restricted to its observable behaviour, `none` when
the construction or call throws and `some b` for a result of truthiness `b`. -/
abbrev EvalOracle := String → List (String × String) → Option Bool

/-- The `{result, display}` pair returned by `evaluate`. -/
structure EvalOutcome where
  result : String
  display : String
deriving DecidableEq, Repr

/-- The outcome produced at a leaf (`data.nodeId`/`data.label` with JS
falsy-string defaults). -/
def leafResult (n : Node) : EvalOutcome :=
  let nodeId := if n.nodeId = "" then "Unknown" else n.nodeId
  let label := if n.label = "" then "Leaf" else n.label
  ⟨nodeId, nodeId ++ " (" ++ label ++ ")"⟩

/-- The `while (currentNode && steps < MAX_STEPS)` loop of `evaluate`, with
`fuel = MAX_STEPS - steps`; exhausted fuel is exactly the `steps >=
MAX_STEPS` exit. -/
def walk (nodes : List Node) (edges : List Edge) (oracle : EvalOracle)
    (context : List (String × String)) :
    Nat → Node → List String → EvalOutcome
  | 0, _, _ => ⟨"Error: Too many steps", "Error: Too many steps (Loop?)"⟩
  | fuel + 1, currentNode, visited =>
    if currentNode.id ∈ visited then
      ⟨"Error: Loop Detected", "Error: Loop Detected"⟩
    else
      let visited' := currentNode.id :: visited
      if currentNode.type = "leaf" then leafResult currentNode
      else if currentNode.type = "root" then
        match edges.find? (fun e =>
            e.source = currentNode.id &&
              (e.sourceHandle = some "out" || e.sourceHandle = none)) with
        | none =>
          ⟨"Stuck: Root has no connection", "Stuck: Root has no connection"⟩
        | some outEdge =>
          match nodes.find? (fun n => n.id = outEdge.target) with
          | none => ⟨"Error: Broken Link", "Error: Broken Link"⟩
          | some next => walk nodes edges oracle context fuel next visited'
      else if currentNode.type = "decision" then
        if currentNode.expression = "" then
          ⟨"Error: Empty Condition", "Error: Empty Condition"⟩
        else
          match oracle currentNode.expression context with
          | none =>
            ⟨"Error: Invalid Expression",
              "Error: Invalid Expression (" ++ currentNode.expression ++ ")"⟩
          | some result =>
            let handleId := if result then "yes" else "no"
            match edges.find? (fun e =>
                e.source = currentNode.id && e.sourceHandle = some handleId) with
            | none =>
              ⟨"Stuck: No path",
                "Stuck: No path for " ++ (if result then "YES" else "NO")⟩
            | some outEdge =>
              match nodes.find? (fun n => n.id = outEdge.target) with
              | none => ⟨"Error: Broken Link", "Error: Broken Link"⟩
              | some next => walk nodes edges oracle context fuel next visited'
      else walk nodes edges oracle context fuel currentNode visited'

/-- `MAX_STEPS` from `evaluate`. -/
def MAX_STEPS : Nat := 100

/-- `evaluate` from `ModelChecker.tsx`: single deterministic graph walk for
one combination. -/
def evaluate (nodes : List Node) (edges : List Edge) (oracle : EvalOracle)
    (context : List (String × String)) : EvalOutcome :=
  match nodes.find? (fun n => n.type = "root") with
  | none => ⟨"Error: No Root", "Error: No Root"⟩
  | some root => walk nodes edges oracle context MAX_STEPS root []

/-- `ModelCheckerResult` from `types/index.ts`. -/
structure ModelCheckerResult where
  combo : List (String × String)
  result : String
  display : String
deriving DecidableEq, Repr

/-- The batch evaluation inside `handleRun`: one result row per combination. -/
def runAll (nodes : List Node) (edges : List Edge) (oracle : EvalOracle)
    (combos : List (List (String × String))) : List ModelCheckerResult :=
  combos.map (fun combo =>
    let r := evaluate nodes edges oracle combo
    ⟨combo, r.result, r.display⟩)

/-- `checkInvariants` from `ModelChecker.tsx`: the invariants whose condition
holds on the combination but whose expected result differs from the actual
one (evaluation errors are ignored). -/
def checkInvariants (oracle : EvalOracle) (invariants : List Invariant)
    (context : List (String × String)) (result : String) : List Invariant :=
  invariants.filter (fun inv =>
    match oracle inv.condition context with
    | some true => result ≠ inv.expectedResult
    | _ => false)

/-- `displayResults`: each stored row augmented with its violation list. -/
def displayResults (oracle : EvalOracle) (invariants : List Invariant)
    (results : List ModelCheckerResult) :
    List (ModelCheckerResult × List Invariant) :=
  results.map (fun row => (row, checkInvariants oracle invariants row.combo row.result))

/-- Modelled from the spec (Model Checker determinism/ordering clause, which
has no separate implementation in the source): lexicographic enumeration of
all assignments, vars in declared order varying slowest, each domain in
declared order. -/
def lexAssignments : List Variable → List (List (String × String))
  | [] => [[]]
  | v :: vs =>
    v.possibleValues.flatMap (fun value =>
      (lexAssignments vs).map (fun rest => (v.name, value) :: rest))

/-- Modelled from the spec: the combination list the spec describes — empty
for zero vars, otherwise the lexicographic enumeration. -/
def specCombinations (vars : List Variable) :
    List (List (String × String)) :=
  if vars.isEmpty then [] else lexAssignments vars

/-! ### Association-list lemmas -/

theorem lookup_cons (a k : String) (b : Finset String) (t : NodeState) :
    List.lookup k ((a, b) :: t) = if k = a then some b else List.lookup k t := by
  by_cases h : k = a
  · subst h; simp [List.lookup]
  · have hb : (k == a) = false := beq_eq_false_iff_ne.mpr h
    simp [List.lookup, hb, h]

theorem setKey_cons (a k : String) (b v : Finset String) (t : NodeState) :
    setKey ((a, b) :: t) k v = (if a = k then (k, v) else (a, b)) :: setKey t k v := by
  simp [setKey]

theorem stateKeys_cons (a : String) (b : Finset String) (t : NodeState) :
    stateKeys ((a, b) :: t) = a :: stateKeys t := rfl

theorem lookup_isSome_iff_mem_keys (s : NodeState) (k : String) :
    (s.lookup k).isSome ↔ k ∈ stateKeys s := by
  induction s with
  | nil => simp [stateKeys]
  | cons p t ih =>
    obtain ⟨a, b⟩ := p
    rw [lookup_cons]
    by_cases h : k = a
    · subst h; simp [stateKeys]
    · simp [stateKeys, h, ih]

theorem stateKeys_setKey (s : NodeState) (k : String) (v : Finset String) :
    stateKeys (setKey s k v) = stateKeys s := by
  induction s with
  | nil => rfl
  | cons p t ih =>
    obtain ⟨a, b⟩ := p
    rw [setKey_cons]
    by_cases h : a = k
    · subst h; simp [stateKeys]; simpa [stateKeys] using ih
    · simp [stateKeys, h]; simpa [stateKeys] using ih

theorem lookup_setKey_self (s : NodeState) (k : String) (v : Finset String)
    (h : k ∈ stateKeys s) : (setKey s k v).lookup k = some v := by
  induction s with
  | nil => simp [stateKeys] at h
  | cons p t ih =>
    obtain ⟨a, b⟩ := p
    rw [setKey_cons]
    by_cases ha : a = k
    · subst ha; rw [if_pos rfl, lookup_cons, if_pos rfl]
    · rw [if_neg ha, lookup_cons, if_neg (fun he => ha he.symm)]
      refine ih ?_
      rw [stateKeys_cons] at h
      rcases List.mem_cons.mp h with h1 | h1
      · exact absurd h1 (fun he => ha he.symm)
      · exact h1

theorem lookup_setKey_ne (s : NodeState) (k k' : String) (v : Finset String)
    (h : k' ≠ k) : (setKey s k v).lookup k' = s.lookup k' := by
  induction s with
  | nil => rfl
  | cons p t ih =>
    obtain ⟨a, b⟩ := p
    rw [setKey_cons]
    by_cases ha : a = k
    · subst ha; rw [if_pos rfl, lookup_cons, if_neg h, lookup_cons, if_neg]
      · exact ih
      · intro he; exact h (he ▸ rfl)
    · rw [if_neg ha, lookup_cons, lookup_cons]
      by_cases hk : k' = a
      · simp [hk]
      · simp [hk]; exact ih

theorem lookup_append_right (s : NodeState) (k : String) (v : Finset String)
    (h : s.lookup k = none) : (s ++ [(k, v)]).lookup k = some v := by
  induction s with
  | nil => simp [lookup_cons]
  | cons p t ih =>
    obtain ⟨a, b⟩ := p
    rw [lookup_cons] at h
    rw [List.cons_append, lookup_cons]
    by_cases ha : k = a
    · simp [ha] at h
    · rw [if_neg ha]
      rw [if_neg ha] at h
      exact ih h

theorem lookup_setKeyFull_self (s : NodeState) (k : String) (v : Finset String) :
    (setKeyFull s k v).lookup k = some v := by
  unfold setKeyFull
  by_cases h : (s.lookup k).isSome
  · simp only [h, if_true]
    exact lookup_setKey_self s k v ((lookup_isSome_iff_mem_keys s k).mp h)
  · simp only [h, if_false]
    exact lookup_append_right s k v (Option.not_isSome_iff_eq_none.mp h)

theorem lookup_append_ne (s : NodeState) (k k' : String) (v : Finset String)
    (h : k' ≠ k) : (s ++ [(k, v)]).lookup k' = s.lookup k' := by
  induction s with
  | nil => simp [lookup_cons, h]
  | cons p t ih =>
    obtain ⟨a, b⟩ := p
    rw [List.cons_append, lookup_cons, lookup_cons]
    by_cases ha : k' = a
    · simp [ha]
    · rw [if_neg ha, if_neg ha]
      exact ih

theorem lookup_setKeyFull_ne (s : NodeState) (k k' : String) (v : Finset String)
    (h : k' ≠ k) : (setKeyFull s k v).lookup k' = s.lookup k' := by
  unfold setKeyFull
  by_cases hs : (s.lookup k).isSome
  · simp only [hs, if_true]; exact lookup_setKey_ne s k k' v h
  · simp only [hs, if_false]
    exact lookup_append_ne s k k' v h

theorem mem_setKeyFull (s : NodeState) (k : String) (v : Finset String)
    (p : String × Finset String) (hp : p ∈ setKeyFull s k v) :
    p ∈ s ∨ p = (k, v) := by
  unfold setKeyFull at hp
  by_cases hs : (s.lookup k).isSome
  · simp only [hs, if_true, setKey, List.mem_map] at hp
    obtain ⟨q, hq, hqe⟩ := hp
    by_cases h : q.1 = k
    · rw [if_pos h] at hqe; exact Or.inr hqe.symm
    · rw [if_neg h] at hqe; exact Or.inl (hqe ▸ hq)
  · simp [hs] at hp
    exact hp

/-! ### `initState` lemmas -/

theorem mem_initState_shape (vars : List Variable)
    (p : String × Finset String) (hp : p ∈ initState vars) :
    ∃ v ∈ vars, p = (v.id, getAllValues v) := by
  suffices h : ∀ (l : List Variable) (acc : NodeState),
      p ∈ l.foldl (fun st v => setKeyFull st v.id (getAllValues v)) acc →
      p ∈ acc ∨ ∃ v ∈ l, p = (v.id, getAllValues v) by
    rcases h vars [] hp with h' | h'
    · simp at h'
    · exact h'
  intro l
  induction l with
  | nil => intro acc h; exact Or.inl h
  | cons w t ih =>
    intro acc h
    rcases ih _ h with h' | ⟨v, hv, he⟩
    · rcases mem_setKeyFull _ _ _ _ h' with h'' | h''
      · exact Or.inl h''
      · exact Or.inr ⟨w, by simp, h''⟩
    · exact Or.inr ⟨v, by simp [hv], he⟩

theorem initState_lookup_isSome (vars : List Variable) (v : Variable)
    (hv : v ∈ vars) : ((initState vars).lookup v.id).isSome := by
  suffices h : ∀ (l : List Variable) (acc : NodeState), v ∈ l →
      ((l.foldl (fun st w => setKeyFull st w.id (getAllValues w)) acc).lookup
        v.id).isSome by
    exact h vars [] hv
  have hpres : ∀ (l : List Variable) (acc : NodeState) (k : String),
      (acc.lookup k).isSome →
      ((l.foldl (fun st w => setKeyFull st w.id (getAllValues w)) acc).lookup
        k).isSome := by
    intro l
    induction l with
    | nil => intro acc k h; exact h
    | cons w t ih =>
      intro acc k h
      refine ih _ _ ?_
      by_cases hk : k = w.id
      · subst hk; simp [lookup_setKeyFull_self]
      · rw [lookup_setKeyFull_ne _ _ _ _ hk]; exact h
  intro l
  induction l with
  | nil => simp
  | cons w t ih =>
    intro acc hl
    by_cases hw : v = w
    · subst hw
      exact hpres t _ v.id (by simp [lookup_setKeyFull_self])
    · exact ih _ (by simpa [hw] using hl)

theorem initState_lookup (vars : List Variable)
    (hnodup : (vars.map (·.id)).Nodup) (v : Variable) (hv : v ∈ vars) :
    (initState vars).lookup v.id = some (getAllValues v) := by
  have hskip : ∀ (l : List Variable) (acc : NodeState) (k : String),
      (∀ u ∈ l, u.id ≠ k) →
      (l.foldl (fun st w => setKeyFull st w.id (getAllValues w)) acc).lookup k =
        acc.lookup k := by
    intro l
    induction l with
    | nil => intro acc k _; rfl
    | cons w t ih =>
      intro acc k h
      rw [List.foldl_cons, ih _ _ (fun u hu => h u (by simp [hu]))]
      exact lookup_setKeyFull_ne _ _ _ _ (Ne.symm (h w (by simp)))
  suffices h : ∀ (l : List Variable) (acc : NodeState),
      (l.map (·.id)).Nodup → v ∈ l →
      (l.foldl (fun st w => setKeyFull st w.id (getAllValues w)) acc).lookup
        v.id = some (getAllValues v) by
    exact h vars [] hnodup hv
  intro l
  induction l with
  | nil => simp
  | cons w t ih =>
    intro acc hnd hl
    have hnd' : (t.map (·.id)).Nodup := (List.nodup_cons.mp hnd).2
    by_cases hw : v = w
    · subst hw
      have hwid : ∀ u ∈ t, u.id ≠ v.id := by
        intro u hu he
        exact (List.nodup_cons.mp hnd).1 (List.mem_map.mpr ⟨u, hu, he⟩)
      simp only [List.foldl_cons]
      rw [hskip t _ v.id hwid, lookup_setKeyFull_self]
    · exact ih _ hnd' (by simpa [hw] using hl)

/-! ### Key preservation along a path walk -/

theorem stateKeys_applyConstraint (state : NodeState) (variableName : String)
    (op : Op) (value : String) (vars : List Variable) :
    stateKeys (applyConstraint state variableName op value vars) =
      stateKeys state := by
  unfold applyConstraint
  cases hf : vars.find? (fun v => v.name = variableName) with
  | none => rfl
  | some foundVar =>
    cases hl : state.lookup foundVar.id with
    | none => simp [hl]
    | some currentValues => simp [hl, stateKeys_setKey]

theorem stateKeys_applyExpression (state : NodeState) (expression : String)
    (isYesBranch : Bool) (vars : List Variable) :
    stateKeys (applyExpression state expression isYesBranch vars) =
      stateKeys state := by
  unfold applyExpression
  by_cases ht : jsTrim expression = ""
  · simp [ht]
  · simp only [ht, if_false]
    cases isYesBranch with
    | true =>
      simp only [if_true]
      generalize splitOnAmpAmp expression = parts
      induction parts generalizing state with
      | nil => rfl
      | cons p t ih =>
        rw [List.foldl_cons]
        cases hm : findEq p with
        | none => simpa [hm] using ih _
        | some r =>
          obtain ⟨varName, op, val⟩ := r
          simp only [hm]
          rw [ih _, stateKeys_applyConstraint]
    | false =>
      simp only [Bool.false_eq_true, if_false]
      by_cases hc : (hasSubstr expression "&&" || hasSubstr expression "||") = true
      · simp [hc]
      · simp only [hc, if_false]
        cases hm : findEq expression with
        | none => rfl
        | some r =>
          obtain ⟨varName, op, val⟩ := r
          simp [stateKeys_applyConstraint]

theorem stateKeys_stepEdge (nodes : List Node) (vars : List Variable)
    (state : NodeState) (edge : Edge) :
    stateKeys (stepEdge nodes vars state edge) = stateKeys state := by
  unfold stepEdge
  cases hf : nodes.find? (fun n => n.id = edge.source) with
  | none => rfl
  | some sourceNode =>
    by_cases hd : sourceNode.type = "decision"
    · simp only [hd, if_true]
      by_cases hh : (edge.sourceHandle = some "yes" || edge.sourceHandle = some "no") = true
      · simp [hh, stateKeys_applyExpression]
      · simp [hh]
    · simp [hd]

theorem stateKeys_walkPath (nodes : List Node) (vars : List Variable)
    (path : List Edge) :
    stateKeys (walkPath nodes vars path) = stateKeys (initState vars) := by
  unfold walkPath
  generalize initState vars = s0
  induction path generalizing s0 with
  | nil => rfl
  | cons e t ih => rw [List.foldl_cons, ih _, stateKeys_stepEdge]

/-! ### `mergeStates` lemmas -/

theorem lookup_map_pair (ks : List String) (f : String → Finset String)
    (k : String) :
    ((ks.map (fun x => (x, f x))).lookup k) =
      if k ∈ ks then some (f k) else none := by
  induction ks with
  | nil => simp
  | cons a t ih =>
    rw [List.map_cons, lookup_cons]
    by_cases h : k = a
    · subst h; simp
    · simp only [h, if_false, ih, List.mem_cons, h, false_or]

theorem mem_unionAt (states : List NodeState) (k : String) (x : String) :
    x ∈ unionAt states k ↔
      ∃ s ∈ states, ∃ w, s.lookup k = some w ∧ x ∈ w := by
  unfold unionAt
  suffices h : ∀ (l : List NodeState) (init : Finset String),
      (x ∈ l.foldl
        (fun acc s =>
          match s.lookup k with
          | some vs => acc ∪ vs
          | none => acc) init) ↔
      x ∈ init ∨ ∃ s ∈ l, ∃ w, s.lookup k = some w ∧ x ∈ w by
    rw [h states ∅]; simp
  intro l
  induction l with
  | nil => simp
  | cons s t ih =>
    intro init
    rw [List.foldl_cons, ih]
    cases hl : s.lookup k with
    | none => simp [hl]
    | some vs =>
      simp only [hl, Finset.mem_union, Option.some.injEq]
      constructor
      · rintro (( h1 | h1) | ⟨s', hs', w, hw, hx⟩)
        · exact Or.inl h1
        · exact Or.inr ⟨s, by simp, vs, hl, h1⟩
        · exact Or.inr ⟨s', by simp [hs'], w, hw, hx⟩
      · rintro (h1 | ⟨s', hs', w, hw, hx⟩)
        · exact Or.inl (Or.inl h1)
        · rcases List.mem_cons.mp hs' with he | hm
          · subst he
            rw [hl] at hw
            obtain rfl : vs = w := by injection hw
            exact Or.inl (Or.inr hx)
          · exact Or.inr ⟨s', hm, w, hw, hx⟩

theorem lookup_mergeStates (s0 : NodeState) (rest : List NodeState)
    (k : String) (hk : k ∈ stateKeys s0) :
    (mergeStates (s0 :: rest)).lookup k = some (unionAt (s0 :: rest) k) := by
  unfold mergeStates
  rw [lookup_map_pair, if_pos hk]

/-! ### Path-enumeration lemmas -/

theorem flatMap_congr_mem {α β : Type} (l : List α) (f g : α → List β)
    (h : ∀ a ∈ l, f a = g a) : l.flatMap f = l.flatMap g := by
  induction l with
  | nil => rfl
  | cons a t ih =>
    rw [List.flatMap_cons, List.flatMap_cons, h a (by simp),
      ih (fun b hb => h b (by simp [hb]))]

theorem pathMeasure_decreases (edges : List Edge) (e : Edge) (he : e ∈ edges)
    (visited : List String) (ht : e.target ∉ e.source :: visited) :
    pathMeasure edges e.target (e.source :: visited) <
      pathMeasure edges e.source visited := by
  have htv : e.target ∉ visited := fun h => ht (List.mem_cons_of_mem _ h)
  by_cases hc : e.source ∈ visited
  · have hfil : ((nodeUniverse edges).filter (fun x => x ∉ e.source :: visited)) =
        ((nodeUniverse edges).filter (fun x => x ∉ visited)) := by
      apply Finset.filter_congr
      intro x _
      constructor
      · intro hx hv
        exact hx (List.mem_cons_of_mem _ hv)
      · intro hx hv
        rcases List.mem_cons.mp hv with rfl | hv'
        · exact hx hc
        · exact hx hv'
    unfold pathMeasure
    rw [hfil, if_neg ht, if_pos hc]
    omega
  · have hsrc : e.source ∈ nodeUniverse edges := by
      unfold nodeUniverse
      rw [List.mem_toFinset]
      exact List.mem_append.mpr (Or.inl (List.mem_map.mpr ⟨e, he, rfl⟩))
    have hmem : e.source ∈ (nodeUniverse edges).filter (fun x => x ∉ visited) :=
      Finset.mem_filter.mpr ⟨hsrc, hc⟩
    have herase : ((nodeUniverse edges).filter (fun x => x ∉ e.source :: visited)) =
        ((nodeUniverse edges).filter (fun x => x ∉ visited)).erase e.source := by
      ext x
      simp only [Finset.mem_filter, Finset.mem_erase, List.mem_cons]
      constructor
      · intro ⟨hx, hnot⟩
        exact ⟨fun he' => hnot (Or.inl he'), hx, fun hv => hnot (Or.inr hv)⟩
      · intro ⟨hne, hx, hnot⟩
        exact ⟨hx, fun hv => hv.elim hne hnot⟩
    have hpos : 0 < ((nodeUniverse edges).filter (fun x => x ∉ visited)).card :=
      Finset.card_pos.mpr ⟨e.source, hmem⟩
    unfold pathMeasure
    rw [herase, Finset.card_erase_of_mem hmem, if_neg ht, if_neg hc]
    omega

theorem findPathsAux_stable (edges : List Edge) (targetNodeId : String) :
    ∀ (fuel : Nat) (currentId : String) (currentPath : List Edge)
      (visited : List String),
      pathMeasure edges currentId visited < fuel →
      findPathsAux edges targetNodeId fuel currentId currentPath visited =
        findPathsAux edges targetNodeId (fuel + 1) currentId currentPath visited := by
  intro fuel
  induction fuel with
  | zero => intro c cp v h; exact absurd h (Nat.not_lt_zero _)
  | succ n ih =>
    intro c cp v h
    by_cases hc : c = targetNodeId
    · simp [findPathsAux, hc]
    · simp only [findPathsAux, hc, if_false]
      apply flatMap_congr_mem
      intro e hme
      have hmf := List.mem_filter.mp hme
      have hsrc : e.source = c := by simpa using hmf.2
      by_cases htv : e.target ∈ c :: v
      · simp [htv]
      · simp only [htv, if_false]
        apply ih
        have hdec := pathMeasure_decreases edges e hmf.1 v (by rw [hsrc]; exact htv)
        rw [hsrc] at hdec
        omega

theorem findPathsAux_ge (edges : List Edge) (targetNodeId : String)
    (fuel fuel' : Nat) (currentId : String) (currentPath : List Edge)
    (visited : List String)
    (hm : pathMeasure edges currentId visited < fuel) (hle : fuel ≤ fuel') :
    findPathsAux edges targetNodeId fuel' currentId currentPath visited =
      findPathsAux edges targetNodeId fuel currentId currentPath visited := by
  obtain ⟨k, rfl⟩ := Nat.exists_eq_add_of_le hle
  induction k with
  | zero => rfl
  | succ n ih =>
    have hstep := findPathsAux_stable edges targetNodeId (fuel + n) currentId
      currentPath visited (lt_of_lt_of_le hm (Nat.le_add_right _ _))
    exact hstep.symm.trans (ih (Nat.le_add_right _ _))

theorem pathMeasure_initial_lt (edges : List Edge) (rootId : String) :
    pathMeasure edges rootId [] < pathFuel edges := by
  unfold pathMeasure pathFuel
  have h2 := Finset.card_filter_le (nodeUniverse edges)
    (fun x => x ∉ ([] : List String))
  rw [if_neg (List.not_mem_nil rootId)]
  omega

theorem findPathsFrom_fuel (edges : List Edge) (targetNodeId rootId : String)
    (fuel : Nat) (h : pathFuel edges ≤ fuel) :
    findPathsAux edges targetNodeId fuel rootId [] [] =
      findPathsFrom edges targetNodeId rootId := by
  unfold findPathsFrom
  exact findPathsAux_ge edges targetNodeId (pathFuel edges) fuel rootId [] []
    (pathMeasure_initial_lt edges rootId) h

theorem findPathsAux_simple (edges : List Edge) (targetNodeId : String) :
    ∀ (fuel : Nat) (currentId : String) (currentPath : List Edge)
      (visited : List String) (p : List Edge),
      currentId ∉ visited →
      p ∈ findPathsAux edges targetNodeId fuel currentId currentPath visited →
      ∃ q, p = currentPath ++ q ∧
        (currentId :: q.map (·.target)).Nodup ∧
        ∀ x ∈ currentId :: q.map (·.target), x ∉ visited := by
  intro fuel
  induction fuel with
  | zero => intro c cp v p _ hp; simp [findPathsAux] at hp
  | succ n ih =>
    intro c cp v p hc hp
    by_cases ht : c = targetNodeId
    · simp only [findPathsAux, ht, if_true, List.mem_singleton] at hp
      subst hp
      refine ⟨[], by simp, by simp, ?_⟩
      intro x hx
      rw [List.map_nil] at hx
      rcases List.mem_cons.mp hx with rfl | hx'
      · exact hc
      · exact absurd hx' (List.not_mem_nil x)
    · simp only [findPathsAux, ht, if_false] at hp
      rw [List.mem_flatMap] at hp
      obtain ⟨e, hme, hpe⟩ := hp
      have hmf := List.mem_filter.mp hme
      have hsrc : e.source = c := by simpa using hmf.2
      by_cases htv : e.target ∈ c :: v
      · simp [htv] at hpe
      · simp only [htv, if_false] at hpe
        obtain ⟨q', hq'e, hq'nd, hq'nv⟩ := ih e.target (cp ++ [e]) (c :: v) p htv hpe
        refine ⟨e :: q', by simpa [List.append_assoc] using hq'e, ?_, ?_⟩
        · rw [List.map_cons, List.nodup_cons]
          refine ⟨fun hmem => ?_, hq'nd⟩
          exact hq'nv c hmem (List.mem_cons_self c v)
        · intro x hx
          rw [List.map_cons] at hx
          rcases List.mem_cons.mp hx with rfl | hx'
          · exact hc
          · exact fun hv => hq'nv x hx' (List.mem_cons_of_mem _ hv)

/-! ### Combination-enumeration lemmas -/

/-- Lexicographic enumeration of value rows, first list varying slowest
(proof-side normal form of the `reduce`-based cartesian product). -/
def lexLists : List (List String) → List (List String)
  | [] => [[]]
  | d :: ds => d.flatMap (fun x => (lexLists ds).map (fun r => x :: r))

theorem foldl_cartesian (args : List (List String)) :
    ∀ acc : List (List String),
      args.foldl (fun acc curr => acc.flatMap (fun c => curr.map (fun n => c ++ [n]))) acc =
        acc.flatMap (fun c => (lexLists args).map (fun r => c ++ r)) := by
  induction args with
  | nil =>
    intro acc
    simp [lexLists]
  | cons d ds ih =>
    intro acc
    rw [List.foldl_cons, ih]
    simp only [lexLists]
    rw [List.flatMap_assoc]
    apply flatMap_congr_mem
    intro c _
    rw [List.flatMap_map, List.map_flatMap]
    apply flatMap_congr_mem
    intro x _
    rw [List.map_map]
    apply List.map_congr_left
    intro r _
    simp [List.append_assoc]

theorem lexAssignments_zip (vars : List Variable) :
    lexAssignments vars =
      (lexLists (vars.map (·.possibleValues))).map
        (fun row => (vars.map (·.name)).zip row) := by
  induction vars with
  | nil => simp [lexAssignments, lexLists]
  | cons v vs ih =>
    simp only [lexAssignments, List.map_cons, lexLists]
    rw [ih, List.map_flatMap]
    apply flatMap_congr_mem
    intro x _
    rw [List.map_map, List.map_map]
    apply List.map_congr_left
    intro r _
    simp

theorem lexAssignments_length (vars : List Variable) :
    (lexAssignments vars).length =
      (vars.map (fun v => v.possibleValues.length)).prod := by
  induction vars with
  | nil => simp [lexAssignments]
  | cons v vs ih =>
    simp only [lexAssignments, List.length_flatMap, List.map_cons, List.prod_cons]
    have h1 : List.map
        (List.length ∘ fun value =>
          (lexAssignments vs).map (fun rest => (v.name, value) :: rest))
        v.possibleValues =
        List.map (fun _ => (vs.map (fun u => u.possibleValues.length)).prod)
          v.possibleValues :=
      List.map_congr_left (fun x _ => by simp [ih])
    rw [h1, List.map_const', List.sum_replicate, smul_eq_mul]

theorem combinations_eq_specCombinations (vars : List Variable) :
    combinations vars = specCombinations vars := by
  unfold combinations specCombinations
  by_cases h : vars.length = 0
  · obtain rfl : vars = [] := List.length_eq_zero.mp h
    simp
  · have hne : vars.isEmpty = false := by
      cases vars with
      | nil => simp at h
      | cons a t => rfl
    have hmaplen : (vars.map (·.possibleValues)).length = vars.length := by simp
    simp only [h, if_false, hne, Bool.false_eq_true]
    rw [cartesian]
    simp only [hmaplen, h, if_false]
    rw [foldl_cartesian]
    rw [lexAssignments_zip]
    simp

/-! ### Reachability set membership -/

theorem mem_analyzeReachability (nodes : List Node) (edges : List Edge)
    (vars : List Variable) (x : String) :
    x ∈ analyzeReachability nodes edges vars ↔
      ∃ n ∈ nodes, n.id = x ∧
        calculateNodeState n.id nodes edges vars ≠ none := by
  unfold analyzeReachability
  suffices h : ∀ (l : List Node) (acc : Finset String),
      (x ∈ l.foldl
        (fun acc node =>
          if calculateNodeState node.id nodes edges vars ≠ none then
            insert node.id acc
          else acc) acc) ↔
      x ∈ acc ∨ ∃ n ∈ l, n.id = x ∧
        calculateNodeState n.id nodes edges vars ≠ none by
    rw [h nodes ∅]; simp
  intro l
  induction l with
  | nil => simp
  | cons a t ih =>
    intro acc
    rw [List.foldl_cons]
    by_cases hc : calculateNodeState a.id nodes edges vars ≠ none
    · rw [if_pos hc, ih]
      constructor
      · rintro (hmem | ⟨n, hn, hnx, hcn⟩)
        · rcases Finset.mem_insert.mp hmem with rfl | hacc
          · exact Or.inr ⟨a, by simp, rfl, hc⟩
          · exact Or.inl hacc
        · exact Or.inr ⟨n, by simp [hn], hnx, hcn⟩
      · rintro (hacc | ⟨n, hn, hnx, hcn⟩)
        · exact Or.inl (Finset.mem_insert_of_mem hacc)
        · rcases List.mem_cons.mp hn with rfl | hnt
          · exact Or.inl (hnx ▸ Finset.mem_insert_self n.id acc)
          · exact Or.inr ⟨n, hnt, hnx, hcn⟩
    · rw [if_neg hc, ih]
      constructor
      · rintro (hacc | ⟨n, hn, hnx, hcn⟩)
        · exact Or.inl hacc
        · exact Or.inr ⟨n, by simp [hn], hnx, hcn⟩
      · rintro (hacc | ⟨n, hn, hnx, hcn⟩)
        · exact Or.inl hacc
        · rcases List.mem_cons.mp hn with rfl | hnt
          · exact absurd hcn hc
          · exact Or.inr ⟨n, hnt, hnx, hcn⟩

/-! ### Graph-walk fault taxonomy -/

/-- Every graph-walk fault string that `evaluate` can place in `result`
instead of throwing: no root, loop detected, too many steps, root stuck,
broken edge target, empty guard, guard evaluation failure, and missing
branch edge. -/
def faultResults : List String :=
  ["Error: No Root", "Error: Too many steps", "Error: Loop Detected",
    "Stuck: Root has no connection", "Error: Broken Link",
    "Error: Empty Condition", "Error: Invalid Expression", "Stuck: No path"]

theorem walk_result_cases (nodes : List Node) (edges : List Edge)
    (oracle : EvalOracle) (context : List (String × String)) :
    ∀ (fuel : Nat) (current : Node) (visited : List String),
      current ∈ nodes →
      (walk nodes edges oracle context fuel current visited).result ∈
          faultResults ∨
        ∃ n ∈ nodes, n.type = "leaf" ∧
          walk nodes edges oracle context fuel current visited = leafResult n := by
  intro fuel
  induction fuel with
  | zero =>
    intro cur vis _
    left
    simp [walk, faultResults]
  | succ m ih =>
    intro cur vis hcur
    by_cases hv : cur.id ∈ vis
    · left; simp [walk, hv, faultResults]
    · by_cases hleaf : cur.type = "leaf"
      · right
        exact ⟨cur, hcur, hleaf, by simp [walk, hv, hleaf]⟩
      · by_cases hroot : cur.type = "root"
        · cases hfe : edges.find? (fun e =>
              e.source = cur.id &&
                (e.sourceHandle = some "out" || e.sourceHandle = none)) with
          | none =>
            left
            simp [walk, hv, hleaf, hroot, hfe, faultResults]
          | some outEdge =>
            cases hfn : nodes.find? (fun n2 => n2.id = outEdge.target) with
            | none =>
              left
              simp [walk, hv, hleaf, hroot, hfe, hfn, faultResults]
            | some next =>
              have hnext : next ∈ nodes := List.mem_of_find?_eq_some hfn
              have hrec := ih next (cur.id :: vis) hnext
              simpa [walk, hv, hleaf, hroot, hfe, hfn] using hrec
        · by_cases hdec : cur.type = "decision"
          · by_cases hexp : cur.expression = ""
            · left
              simp [walk, hv, hleaf, hroot, hdec, hexp, faultResults]
            · cases hor : oracle cur.expression context with
              | none =>
                left
                simp [walk, hv, hleaf, hroot, hdec, hexp, hor, faultResults]
              | some result =>
                cases hfe : edges.find? (fun e =>
                    e.source = cur.id &&
                      e.sourceHandle = some (if result then "yes" else "no")) with
                | none =>
                  left
                  simp [walk, hv, hleaf, hroot, hdec, hexp, hor, hfe,
                    faultResults]
                | some outEdge =>
                  cases hfn : nodes.find? (fun n2 => n2.id = outEdge.target) with
                  | none =>
                    left
                    simp [walk, hv, hleaf, hroot, hdec, hexp, hor, hfe, hfn,
                      faultResults]
                  | some next =>
                    have hnext : next ∈ nodes := List.mem_of_find?_eq_some hfn
                    have hrec := ih next (cur.id :: vis) hnext
                    simpa [walk, hv, hleaf, hroot, hdec, hexp, hor, hfe, hfn]
                      using hrec
          · have hrec := ih cur (cur.id :: vis) hcur
            simpa [walk, hv, hleaf, hroot, hdec] using hrec

/-! ### Shape lemmas for `calculateNodeState` -/

theorem calculateNodeState_root_spec (nodes : List Node) (edges : List Edge)
    (vars : List Variable) (targetNodeId : String) (root : Node)
    (hroot : nodes.find? (fun n => n.type = "root") = some root) :
    calculateNodeState targetNodeId nodes edges vars =
      (if (findPathsFrom edges targetNodeId root.id).length = 0 then
        if targetNodeId = root.id then some (initState vars) else none
      else
        if (((findPathsFrom edges targetNodeId root.id).map
              (walkPath nodes vars)).filter validState).length = 0 then none
        else
          some (mergeStates (((findPathsFrom edges targetNodeId root.id).map
            (walkPath nodes vars)).filter validState))) := by
  unfold calculateNodeState
  rw [hroot]

theorem calculateNodeState_no_root (nodes : List Node) (edges : List Edge)
    (vars : List Variable) (targetNodeId : String)
    (hroot : nodes.find? (fun n => n.type = "root") = none) :
    calculateNodeState targetNodeId nodes edges vars = some [] := by
  unfold calculateNodeState
  rw [hroot]

/-! ### Concrete example inputs -/

/-- Two enum variables, as in the spec's concrete scenarios. -/
def demoVars : List Variable :=
  [⟨"v1", "Temp", ["HIGH", "LOW"]⟩, ⟨"v2", "Mode", ["ON", "OFF"]⟩]

/-- Root → decision (`Temp == HIGH`) → yes → leaf. -/
def demoNodes : List Node :=
  [⟨"R", "root", "", "", ""⟩, ⟨"D", "decision", "Temp == HIGH", "D1", ""⟩,
    ⟨"L", "leaf", "", "L1", "Stop"⟩]

/-- Edges of the demo graph. -/
def demoEdges : List Edge :=
  [⟨"e1", "R", "D", none⟩, ⟨"e2", "D", "L", some "yes"⟩]

/-- The demo graph extended with a node no edge reaches. -/
def demoNodesIso : List Node :=
  demoNodes ++ [⟨"X", "leaf", "", "L9", ""⟩]

/-- The 3-node cycle from the spec's termination test:
root → A, A → B on "yes", B → A on "no". -/
def cycleNodes : List Node :=
  [⟨"R", "root", "", "", ""⟩, ⟨"A", "decision", "condA", "D1", ""⟩,
    ⟨"B", "decision", "condB", "D2", ""⟩]

/-- Edges of the cycle graph. -/
def cycleEdges : List Edge :=
  [⟨"e1", "R", "A", none⟩, ⟨"e2", "A", "B", some "yes"⟩,
    ⟨"e3", "B", "A", some "no"⟩]

/-- Oracle making A's guard true and B's guard false, so the walk revisits A. -/
def cycleOracle : EvalOracle := fun expr _ => some (expr = "condA")

/-- Nodes of a graph with no root at all. -/
def rootlessNodes : List Node :=
  [⟨"D", "decision", "Temp == HIGH", "D1", ""⟩, ⟨"L", "leaf", "", "L1", ""⟩]

/-- Invariant of the spec's violation scenario. -/
def demoInvariant : Invariant := ⟨"i1", "TempHigh", "Temp == HIGH", "L1"⟩

/-- A second invariant whose condition is false on the demo combination. -/
def otherInvariant : Invariant := ⟨"i2", "TempLow", "Temp == LOW", "L2"⟩

/-- Oracle for the two demo invariant conditions. -/
def demoOracle : EvalOracle := fun cond ctx =>
  if cond = "Temp == HIGH" then some (ctx.lookup "Temp" == some "HIGH")
  else if cond = "Temp == LOW" then some (ctx.lookup "Temp" == some "LOW")
  else none

/-! ### Claim theorems -/

/-- C6: an invariant is attached to a combination's row as a violation iff
its condition evaluates to (truthy) true on that combination and its expected
result differs from the combination's actual terminal result; a row may
violate zero, one, or many invariants, and `displayResults` attaches exactly
the `checkInvariants` list to each stored row. -/
theorem C6_invariant_violations (oracle : EvalOracle)
    (invariants : List Invariant) (context : List (String × String))
    (result : String) :
    (∀ inv, inv ∈ checkInvariants oracle invariants context result ↔
      (inv ∈ invariants ∧ oracle inv.condition context = some true ∧
        result ≠ inv.expectedResult)) ∧
    (∀ (results : List ModelCheckerResult)
        (row : ModelCheckerResult × List Invariant),
      row ∈ displayResults oracle invariants results →
      row.1 ∈ results ∧
        row.2 = checkInvariants oracle invariants row.1.combo row.1.result) := by
  constructor
  · intro inv
    rw [checkInvariants, List.mem_filter]
    cases ho : oracle inv.condition context with
    | none => simp [ho]
    | some b =>
      cases b with
      | true => simp [ho]
      | false => simp [ho]
  · intro results row hrow
    unfold displayResults at hrow
    rw [List.mem_map] at hrow
    obtain ⟨r, hr, rfl⟩ := hrow
    exact ⟨hr, rfl⟩

/-- C6 witness: the spec's violation scenario — condition `Temp == HIGH`
holds on `{Temp: HIGH}`, the run ends at `L2` instead of the expected `L1`,
and exactly that invariant (not the other) is attached. -/
theorem C6_invariant_violations_witness :
    demoInvariant ∈
      checkInvariants demoOracle [demoInvariant, otherInvariant]
        [("Temp", "HIGH")] "L2" ∧
    otherInvariant ∉
      checkInvariants demoOracle [demoInvariant, otherInvariant]
        [("Temp", "HIGH")] "L2" := by
  constructor
  · exact ((C6_invariant_violations demoOracle [demoInvariant, otherInvariant]
      [("Temp", "HIGH")] "L2").1 demoInvariant).mpr
      ⟨by decide, by decide, by decide⟩
  · intro hmem
    have h := ((C6_invariant_violations demoOracle [demoInvariant, otherInvariant]
      [("Temp", "HIGH")] "L2").1 otherInvariant).mp hmem
    exact absurd h.2.1 (by decide)

/-- C7: the combination list equals the spec's lexicographic enumeration
(variables in declared order varying slowest, domains in declared order), and
its length is the product of the domain sizes — zero for zero variables.
Both sides are pure functions of the variable list, so re-running reproduces
the identical ordered list. -/
theorem C7_combinations_count_order (vars : List Variable) :
    combinations vars = specCombinations vars ∧
    (combinations vars).length =
      (if vars.isEmpty then 0
        else (vars.map (fun v => v.possibleValues.length)).prod) := by
  refine ⟨combinations_eq_specCombinations vars, ?_⟩
  rw [combinations_eq_specCombinations]
  unfold specCombinations
  by_cases h : vars.isEmpty
  · simp [h]
  · simp only [h, Bool.false_eq_true, if_false]
    exact lexAssignments_length vars

/-- C7 witness: the two demo variables produce the four combinations in
lexicographic order, and the count matches `2 * 2`. -/
theorem C7_combinations_count_order_witness :
    combinations demoVars = specCombinations demoVars ∧
    (combinations demoVars).length =
      (if demoVars.isEmpty then 0
        else (demoVars.map (fun v => v.possibleValues.length)).prod) :=
  C7_combinations_count_order demoVars

/-- C8: the walk result for any single combination is always a value — either
a leaf's terminal id or one of the enumerated graph-walk fault strings, never
an exception — and the batch run still produces exactly one row per
combination, each row carrying that combination's own result. -/
theorem C8_faults_as_values (nodes : List Node) (edges : List Edge)
    (oracle : EvalOracle) (context : List (String × String)) :
    ((evaluate nodes edges oracle context).result ∈ faultResults ∨
      ∃ n ∈ nodes, n.type = "leaf" ∧
        evaluate nodes edges oracle context = leafResult n) ∧
    (∀ combos : List (List (String × String)),
      (runAll nodes edges oracle combos).length = combos.length ∧
      ∀ row ∈ runAll nodes edges oracle combos,
        row.combo ∈ combos ∧
          row.result = (evaluate nodes edges oracle row.combo).result ∧
          row.display = (evaluate nodes edges oracle row.combo).display) := by
  constructor
  · unfold evaluate
    cases hr : nodes.find? (fun n => n.type = "root") with
    | none => left; simp [faultResults]
    | some root =>
      simpa using walk_result_cases nodes edges oracle context MAX_STEPS root []
        (List.mem_of_find?_eq_some hr)
  · intro combos
    constructor
    · simp [runAll]
    · intro row hrow
      unfold runAll at hrow
      rw [List.mem_map] at hrow
      obtain ⟨c, hc, rfl⟩ := hrow
      exact ⟨hc, rfl, rfl⟩

/-- C8 witness: instantiation on the cycle graph, whose only combination
yields the loop-detected fault as a row value. -/
theorem C8_faults_as_values_witness :
    ((evaluate cycleNodes cycleEdges cycleOracle []).result ∈ faultResults ∨
      ∃ n ∈ cycleNodes, n.type = "leaf" ∧
        evaluate cycleNodes cycleEdges cycleOracle [] = leafResult n) ∧
    (runAll cycleNodes cycleEdges cycleOracle [[]]).length = 1 ∧
    ∀ row ∈ runAll cycleNodes cycleEdges cycleOracle [[]],
      row.result = "Error: Loop Detected" := by
  refine ⟨(C8_faults_as_values cycleNodes cycleEdges cycleOracle []).1, ?_, ?_⟩
  · exact ((C8_faults_as_values cycleNodes cycleEdges cycleOracle []).2 [[]]).1
  · intro row hrow
    have h := (((C8_faults_as_values cycleNodes cycleEdges cycleOracle []).2
      [[]]).2 row hrow).2.1
    have hc : row.combo = [] := by
      have := (((C8_faults_as_values cycleNodes cycleEdges cycleOracle []).2
        [[]]).2 row hrow).1
      simpa using this
    rw [h, hc]
    decide

/-- C10: with no root node in the list, `calculateNodeState` returns the bare
empty mapping (not the `none` sentinel) for every target, so
`analyzeReachability` reports every node of the graph — connected or not —
as reachable. -/
theorem C10_no_root_all_reachable (nodes : List Node) (edges : List Edge)
    (vars : List Variable)
    (hroot : nodes.find? (fun n => n.type = "root") = none) :
    (∀ targetNodeId,
      calculateNodeState targetNodeId nodes edges vars = some []) ∧
    analyzeReachability nodes edges vars = (nodes.map (·.id)).toFinset := by
  refine ⟨fun t => calculateNodeState_no_root nodes edges vars t hroot, ?_⟩
  ext x
  rw [mem_analyzeReachability, List.mem_toFinset, List.mem_map]
  constructor
  · rintro ⟨n, hn, hnx, _⟩
    exact ⟨n, hn, hnx⟩
  · rintro ⟨n, hn, hnx⟩
    refine ⟨n, hn, hnx, ?_⟩
    rw [calculateNodeState_no_root nodes edges vars n.id hroot]
    simp

/-- C10 witness: a rootless two-node graph (one of the nodes fully
disconnected) where every node is reported reachable. -/
theorem C10_no_root_all_reachable_witness :
    (calculateNodeState "L" rootlessNodes [] demoVars = some []) ∧
    analyzeReachability rootlessNodes [] demoVars =
      (rootlessNodes.map (·.id)).toFinset := by
  refine ⟨(C10_no_root_all_reachable rootlessNodes [] demoVars (by decide)).1 "L",
    (C10_no_root_all_reachable rootlessNodes [] demoVars (by decide)).2⟩

/-- C9: both analyses terminate on every graph, cyclic ones included — every
enumerated path is simple (the DFS only extends a path with nodes not already
on it, so the result is independent of any fuel beyond the `pathFuel` bound),
and the single-combination walk is cut off after `MAX_STEPS`: exhausted fuel
yields the "too many steps" error, while the spec's 3-node cycle is caught by
loop detection and its path enumeration completes with the one simple path. -/
theorem C9_termination :
    (∀ (edges : List Edge) (targetNodeId rootId : String) (p : List Edge),
      p ∈ findPathsFrom edges targetNodeId rootId →
      (rootId :: p.map (·.target)).Nodup) ∧
    (∀ (edges : List Edge) (targetNodeId rootId : String) (fuel : Nat),
      pathFuel edges ≤ fuel →
      findPathsAux edges targetNodeId fuel rootId [] [] =
        findPathsFrom edges targetNodeId rootId) ∧
    evaluate cycleNodes cycleEdges cycleOracle [] =
      ⟨"Error: Loop Detected", "Error: Loop Detected"⟩ ∧
    calculateNodeState "B" cycleNodes cycleEdges [] =
      some (mergeStates [initState []]) ∧
    (∀ (nodes : List Node) (edges : List Edge) (oracle : EvalOracle)
        (context : List (String × String)) (current : Node)
        (visited : List String),
      walk nodes edges oracle context 0 current visited =
        ⟨"Error: Too many steps", "Error: Too many steps (Loop?)"⟩) := by
  refine ⟨?_, ?_, by decide, by decide, fun _ _ _ _ _ _ => rfl⟩
  · intro edges targetNodeId rootId p hp
    obtain ⟨q, hq, hnd, _⟩ := findPathsAux_simple edges targetNodeId
      (pathFuel edges) rootId [] [] p (List.not_mem_nil rootId) hp
    rw [List.nil_append] at hq
    exact hq ▸ hnd
  · intro edges targetNodeId rootId fuel h
    exact findPathsFrom_fuel edges targetNodeId rootId fuel h

/-- C9 witness: the demo graph's single enumerated path is simple, and a fuel
of 20 (above the bound) computes the same path list. -/
theorem C9_termination_witness :
    ("R" :: [Edge.mk "e1" "R" "D" none,
        Edge.mk "e2" "D" "L" (some "yes")].map (·.target)).Nodup ∧
    findPathsAux demoEdges "L" 20 "R" [] [] = findPathsFrom demoEdges "L" "R" := by
  constructor
  · exact C9_termination.1 demoEdges "L" "R"
      [Edge.mk "e1" "R" "D" none, Edge.mk "e2" "D" "L" (some "yes")] (by decide)
  · exact C9_termination.2.1 demoEdges "L" "R" 20 (by decide)

/-- C5: in a graph with a root, a node's id is in the reachable set iff its
state result is not the unreachable sentinel; in particular a non-root node
with no incoming root-path at all is reported unreachable. -/
theorem C5_reachable_iff_not_sentinel (nodes : List Node) (edges : List Edge)
    (vars : List Variable) (root : Node)
    (hroot : nodes.find? (fun n => n.type = "root") = some root) :
    (∀ n ∈ nodes, (n.id ∈ analyzeReachability nodes edges vars ↔
      calculateNodeState n.id nodes edges vars ≠ none)) ∧
    (∀ n ∈ nodes, n.id ≠ root.id →
      findPathsFrom edges n.id root.id = [] →
      n.id ∉ analyzeReachability nodes edges vars) := by
  constructor
  · intro n hn
    rw [mem_analyzeReachability]
    constructor
    · rintro ⟨m, _, hmx, hmc⟩
      rw [hmx] at hmc
      exact hmc
    · intro hc
      exact ⟨n, hn, rfl, hc⟩
  · intro n _ hne hpaths
    rw [mem_analyzeReachability]
    rintro ⟨m, _, hmx, hmc⟩
    apply hmc
    rw [hmx, calculateNodeState_root_spec nodes edges vars n.id root hroot,
      hpaths]
    simp [hne]

/-- C5 witness: in the demo graph extended with a disconnected leaf, the
connected nodes are reachable, and the disconnected leaf (which has zero
incoming paths) is not. -/
theorem C5_reachable_iff_not_sentinel_witness :
    ("L" ∈ analyzeReachability demoNodesIso demoEdges demoVars ↔
      calculateNodeState "L" demoNodesIso demoEdges demoVars ≠ none) ∧
    "X" ∉ analyzeReachability demoNodesIso demoEdges demoVars := by
  constructor
  · exact (C5_reachable_iff_not_sentinel demoNodesIso demoEdges demoVars
      (Node.mk "R" "root" "" "" "") (by decide)).1
      (Node.mk "L" "leaf" "" "L1" "Stop") (by decide)
  · exact (C5_reachable_iff_not_sentinel demoNodesIso demoEdges demoVars
      (Node.mk "R" "root" "" "" "") (by decide)).2
      (Node.mk "X" "leaf" "" "L9" "") (by decide) (by decide) (by decide)

/-- C4: with a root present, a non-root target gets the distinct `none`
sentinel exactly when no simple root-to-target path exists or every such
path is contradictory; the root itself (with well-formed variables: non-empty
domains, distinct ids) gets the universal state mapping every variable to
its full declared domain. -/
theorem C4_sentinel_and_root_universal (nodes : List Node) (edges : List Edge)
    (vars : List Variable) (root : Node)
    (hroot : nodes.find? (fun n => n.type = "root") = some root)
    (hdom : ∀ v ∈ vars, v.possibleValues ≠ [])
    (hnodup : (vars.map (·.id)).Nodup) :
    (∀ targetNodeId, targetNodeId ≠ root.id →
      (calculateNodeState targetNodeId nodes edges vars = none ↔
        (findPathsFrom edges targetNodeId root.id = [] ∨
          ∀ p ∈ findPathsFrom edges targetNodeId root.id,
            validState (walkPath nodes vars p) = false))) ∧
    (∃ m, calculateNodeState root.id nodes edges vars = some m ∧
      ∀ v ∈ vars, m.lookup v.id = some (getAllValues v)) := by
  constructor
  · intro target hne
    rw [calculateNodeState_root_spec nodes edges vars target root hroot]
    by_cases hp : (findPathsFrom edges target root.id).length = 0
    · rw [if_pos hp, if_neg hne]
      have hnil : findPathsFrom edges target root.id = [] :=
        List.length_eq_zero.mp hp
      simp [hnil]
    · rw [if_neg hp]
      by_cases hv : (((findPathsFrom edges target root.id).map
          (walkPath nodes vars)).filter validState).length = 0
      · rw [if_pos hv]
        have hfil : ((findPathsFrom edges target root.id).map
            (walkPath nodes vars)).filter validState = [] :=
          List.length_eq_zero.mp hv
        constructor
        · intro _
          right
          intro p hp2
          cases hb : validState (walkPath nodes vars p) with
          | false => rfl
          | true =>
            have hmem : walkPath nodes vars p ∈
                ((findPathsFrom edges target root.id).map
                  (walkPath nodes vars)).filter validState :=
              List.mem_filter.mpr ⟨List.mem_map_of_mem _ hp2, hb⟩
            rw [hfil] at hmem
            exact absurd hmem (List.not_mem_nil _)
        · intro _; rfl
      · rw [if_neg hv]
        constructor
        · intro h; exact absurd h (by simp)
        · rintro (hnil | hall)
          · exact absurd (by rw [hnil]; rfl) hp
          · exfalso
            have hne3 : ((findPathsFrom edges target root.id).map
                (walkPath nodes vars)).filter validState ≠ [] :=
              fun h0 => hv (by rw [h0]; rfl)
            obtain ⟨s, hs⟩ := List.exists_mem_of_ne_nil _ hne3
            have hsf := List.mem_filter.mp hs
            obtain ⟨p, hp2, hpe⟩ := List.mem_map.mp hsf.1
            have h1 : validState s = false := by
              rw [← hpe]; exact hall p hp2
            have h2 := hsf.2
            rw [h1] at h2
            cases h2
  · have hpaths : findPathsFrom edges root.id root.id = [[]] := by
      unfold findPathsFrom
      obtain ⟨f, hf⟩ : ∃ f, pathFuel edges = f + 1 :=
        ⟨2 * (nodeUniverse edges).card + 1, rfl⟩
      rw [hf]
      simp [findPathsAux]
    have hwalkmap : ([[]] : List (List Edge)).map (walkPath nodes vars) =
        [initState vars] := by
      simp [walkPath]
    have hvalidinit : validState (initState vars) = true := by
      unfold validState
      rw [List.all_eq_true]
      intro p hp
      obtain ⟨v, hv, rfl⟩ := mem_initState_shape vars p hp
      have hne : v.possibleValues ≠ [] := hdom v hv
      have hnonempty : (getAllValues v).Nonempty := by
        cases hvp : v.possibleValues with
        | nil => exact absurd hvp hne
        | cons a t => exact ⟨a, by simp [getAllValues, hvp]⟩
      simpa [Finset.card_pos] using hnonempty
    have hfilter : ([initState vars]).filter validState = [initState vars] := by
      simp [hvalidinit]
    refine ⟨mergeStates [initState vars], ?_, ?_⟩
    · rw [calculateNodeState_root_spec nodes edges vars root.id root hroot,
        hpaths, hwalkmap, hfilter]
      simp
    · intro v hv
      have hkey : v.id ∈ stateKeys (initState vars) :=
        (lookup_isSome_iff_mem_keys _ _).mp (initState_lookup_isSome vars v hv)
      rw [lookup_mergeStates (initState vars) [] v.id hkey]
      have hunion : unionAt [initState vars] v.id = getAllValues v := by
        unfold unionAt
        simp only [List.foldl_cons, List.foldl_nil]
        rw [initState_lookup vars hnodup v hv]
        simp
      rw [hunion]

/-- C4 witness: in the demo graph, an id with no node and no incoming path
gets the sentinel, the unreachable-iff characterisation holds for the leaf,
and the root's state is the full domain of both variables. -/
theorem C4_sentinel_and_root_universal_witness :
    (calculateNodeState "Z" demoNodes demoEdges demoVars = none ↔
      (findPathsFrom demoEdges "Z" "R" = [] ∨
        ∀ p ∈ findPathsFrom demoEdges "Z" "R",
          validState (walkPath demoNodes demoVars p) = false)) ∧
    (∃ m, calculateNodeState "R" demoNodes demoEdges demoVars = some m ∧
      ∀ v ∈ demoVars, m.lookup v.id = some (getAllValues v)) := by
  constructor
  · exact (C4_sentinel_and_root_universal demoNodes demoEdges demoVars
      (Node.mk "R" "root" "" "" "") (by decide) (by decide) (by decide)).1
      "Z" (by decide)
  · exact (C4_sentinel_and_root_universal demoNodes demoEdges demoVars
      (Node.mk "R" "root" "" "" "") (by decide) (by decide) (by decide)).2

/-- C1: when at least one valid (non-contradictory) simple root-to-target
path exists, `calculateNodeState` returns a mapping, and for every variable
the mapping holds exactly the union, over all valid enumerated paths, of that
variable's narrowed possible-set — contradictory paths are filtered out and
contribute nothing. -/
theorem C1_state_is_union_over_valid_paths (nodes : List Node)
    (edges : List Edge) (vars : List Variable) (targetNodeId : String)
    (root : Node)
    (hroot : nodes.find? (fun n => n.type = "root") = some root)
    (hvalid : ∃ p ∈ findPathsFrom edges targetNodeId root.id,
      validState (walkPath nodes vars p) = true) :
    ∃ m, calculateNodeState targetNodeId nodes edges vars = some m ∧
      ∀ v ∈ vars, ∃ values, m.lookup v.id = some values ∧
        ∀ x, x ∈ values ↔
          ∃ p ∈ findPathsFrom edges targetNodeId root.id,
            validState (walkPath nodes vars p) = true ∧
            x ∈ ((walkPath nodes vars p).lookup v.id).getD ∅ := by
  obtain ⟨p₀, hp₀, hv₀⟩ := hvalid
  rw [calculateNodeState_root_spec nodes edges vars targetNodeId root hroot]
  have hpne : findPathsFrom edges targetNodeId root.id ≠ [] :=
    List.ne_nil_of_mem hp₀
  have hlen : ¬ (findPathsFrom edges targetNodeId root.id).length = 0 :=
    fun h0 => hpne (List.length_eq_zero.mp h0)
  have hmem0 : walkPath nodes vars p₀ ∈
      ((findPathsFrom edges targetNodeId root.id).map
        (walkPath nodes vars)).filter validState :=
    List.mem_filter.mpr ⟨List.mem_map_of_mem _ hp₀, hv₀⟩
  have hvne : ((findPathsFrom edges targetNodeId root.id).map
      (walkPath nodes vars)).filter validState ≠ [] :=
    List.ne_nil_of_mem hmem0
  have hvlen : ¬ (((findPathsFrom edges targetNodeId root.id).map
      (walkPath nodes vars)).filter validState).length = 0 :=
    fun h0 => hvne (List.length_eq_zero.mp h0)
  rw [if_neg hlen, if_neg hvlen]
  refine ⟨_, rfl, ?_⟩
  intro v hv
  obtain ⟨s0, rest, hsplit⟩ := List.exists_cons_of_ne_nil hvne
  have hs0mem : s0 ∈ ((findPathsFrom edges targetNodeId root.id).map
      (walkPath nodes vars)).filter validState := by
    rw [hsplit]; exact List.mem_cons_self _ _
  obtain ⟨p1, hp1, hp1e⟩ := List.mem_map.mp (List.mem_filter.mp hs0mem).1
  have hkey : v.id ∈ stateKeys s0 := by
    rw [← hp1e, stateKeys_walkPath]
    exact (lookup_isSome_iff_mem_keys _ _).mp (initState_lookup_isSome vars v hv)
  rw [hsplit, lookup_mergeStates s0 rest v.id hkey]
  refine ⟨unionAt (s0 :: rest) v.id, rfl, ?_⟩
  intro x
  rw [mem_unionAt, ← hsplit]
  constructor
  · rintro ⟨s, hs, w, hw, hx⟩
    have hsf := List.mem_filter.mp hs
    obtain ⟨p, hp2, hpe⟩ := List.mem_map.mp hsf.1
    refine ⟨p, hp2, ?_, ?_⟩
    · rw [hpe]; exact hsf.2
    · rw [hpe, hw]; simpa using hx
  · rintro ⟨p, hp2, hval, hx⟩
    refine ⟨walkPath nodes vars p,
      List.mem_filter.mpr ⟨List.mem_map_of_mem _ hp2, hval⟩, ?_⟩
    cases hlk : (walkPath nodes vars p).lookup v.id with
    | none => rw [hlk] at hx; simp at hx
    | some w =>
      refine ⟨w, rfl, ?_⟩
      rw [hlk] at hx
      simpa using hx

/-- C1 witness: the demo graph's leaf has the single valid path through the
`Temp == HIGH` "yes" edge, and its computed state is exactly that path's
narrowed state for each variable. -/
theorem C1_state_is_union_over_valid_paths_witness :
    ∃ m, calculateNodeState "L" demoNodes demoEdges demoVars = some m ∧
      ∀ v ∈ demoVars, ∃ values, m.lookup v.id = some values ∧
        ∀ x, x ∈ values ↔
          ∃ p ∈ findPathsFrom demoEdges "L" "R",
            validState (walkPath demoNodes demoVars p) = true ∧
            x ∈ ((walkPath demoNodes demoVars p).lookup v.id).getD ∅ :=
  C1_state_is_union_over_valid_paths demoNodes demoEdges demoVars "L"
    (Node.mk "R" "root" "" "" "") (by decide)
    ⟨[Edge.mk "e1" "R" "D" none, Edge.mk "e2" "D" "L" (some "yes")],
      by decide, by decide⟩

/-- C2 counterexample: the guard `Temp == HIGH || Temp == LOW` contains `||`
and is satisfiable (Temp = HIGH satisfies it), yet the "yes"-branch narrowing
turns the full domain `{HIGH, LOW}` into the empty set — a spurious
contradiction.  The unanchored pattern matcher still fires on the conjunct,
absorbing `HIGH || Temp == LOW` as the compared value, so complex guards are
not always over-approximated. -/
theorem C2_counterexample_spurious_contradiction :
    hasSubstr "Temp == HIGH || Temp == LOW" "||" = true ∧
    (initState demoVars).lookup "v1" = some ({"HIGH", "LOW"} : Finset String) ∧
    findEq "Temp == HIGH || Temp == LOW" =
      some ("Temp", Op.eq, "HIGH || Temp == LOW") ∧
    (applyExpression (initState demoVars) "Temp == HIGH || Temp == LOW" true
      demoVars).lookup "v1" = some (∅ : Finset String) := by
  decide

/-- C2 (amended): on the "yes" branch the guard is split on `&&`; a conjunct
recognised as `Var == Value` narrows `Var` to `{Value}` when `Value` is still
possible and to the empty set otherwise, a `Var != Value` conjunct removes
`Value`, and a conjunct in which the matcher finds no equality pattern causes
no narrowing.  (The original claim's final clause is dropped: a conjunct
containing `||` or parentheses can still match the unanchored pattern, with
the conjunct's remaining text absorbed into the value, so a complex guard can
produce a spurious contradiction rather than a guaranteed
over-approximation.) -/
theorem C2_yes_branch_narrowing :
    (∀ (vars : List Variable) (state : NodeState) (expression : String),
      (∀ part ∈ splitOnAmpAmp expression, findEq part = none) →
      applyExpression state expression true vars = state) ∧
    (∀ (vars : List Variable) (state : NodeState)
        (expression varName val : String) (op : Op),
      jsTrim expression ≠ "" →
      splitOnAmpAmp expression = [expression] →
      findEq expression = some (varName, op, val) →
      applyExpression state expression true vars =
        applyConstraint state (jsTrim varName) op val vars) ∧
    (∀ (vars : List Variable) (state : NodeState) (varName val : String)
        (v : Variable) (cur : Finset String),
      vars.find? (fun w => w.name = varName) = some v →
      state.lookup v.id = some cur →
      ((parseValue val ∈ cur →
        (applyConstraint state varName Op.eq val vars).lookup v.id =
          some {parseValue val}) ∧
      (parseValue val ∉ cur →
        (applyConstraint state varName Op.eq val vars).lookup v.id =
          some (∅ : Finset String)) ∧
      (applyConstraint state varName Op.ne val vars).lookup v.id =
        some (cur.erase (parseValue val)))) := by
  refine ⟨?_, ?_, ?_⟩
  · intro vars state expression hparts
    unfold applyExpression
    by_cases ht : jsTrim expression = ""
    · simp [ht]
    · simp only [ht, if_false, if_true]
      suffices h : ∀ (parts : List String) (st : NodeState),
          (∀ part ∈ parts, findEq part = none) →
          parts.foldl
            (fun st part =>
              match findEq part with
              | some (varName, op, val) =>
                applyConstraint st (jsTrim varName) op val vars
              | none => st) st = st by
        exact h _ state hparts
      intro parts
      induction parts with
      | nil => intro st _; rfl
      | cons q t ih =>
        intro st hq
        rw [List.foldl_cons]
        have hqn : findEq q = none := hq q (by simp)
        simp only [hqn]
        exact ih st (fun part hp => hq part (by simp [hp]))
  · intro vars state expression varName val op ht hsplit hmatch
    unfold applyExpression
    rw [if_neg ht, if_pos rfl]
    rw [hsplit, List.foldl_cons, List.foldl_nil, hmatch]
  · intro vars state varName val v cur hfind hlookup
    have hkey : v.id ∈ stateKeys state :=
      (lookup_isSome_iff_mem_keys _ _).mp (by rw [hlookup]; rfl)
    unfold applyConstraint
    rw [hfind]
    simp only [hlookup]
    refine ⟨fun hin => ?_, fun hnin => ?_, ?_⟩
    · rw [if_pos hin]
      exact lookup_setKey_self state v.id _ hkey
    · rw [if_neg hnin]
      exact lookup_setKey_self state v.id _ hkey
    · exact lookup_setKey_self state v.id _ hkey

/-- C2 witness: a non-matching conjunct leaves the state unchanged, a simple
equality conjunct reduces to the corresponding constraint, and the constraint
narrows `Temp` from `{HIGH, LOW}` to `{HIGH}`. -/
theorem C2_yes_branch_narrowing_witness :
    applyExpression (initState demoVars) "no simple guard here" true demoVars =
      initState demoVars ∧
    applyExpression (initState demoVars) "Temp == HIGH" true demoVars =
      applyConstraint (initState demoVars) (jsTrim "Temp") Op.eq "HIGH"
        demoVars ∧
    (applyConstraint (initState demoVars) "Temp" Op.eq "HIGH"
      demoVars).lookup "v1" = some ({"HIGH"} : Finset String) := by
  refine ⟨?_, ?_, ?_⟩
  · exact C2_yes_branch_narrowing.1 demoVars (initState demoVars)
      "no simple guard here" (by decide)
  · exact C2_yes_branch_narrowing.2.1 demoVars (initState demoVars)
      "Temp == HIGH" "Temp" "HIGH" Op.eq (by decide) (by decide) (by decide)
  · exact (C2_yes_branch_narrowing.2.2 demoVars (initState demoVars)
      "Temp" "HIGH" (Variable.mk "v1" "Temp" ["HIGH", "LOW"])
      {"HIGH", "LOW"} (by decide) (by decide)).1 (by decide)

/-- C3: on the "no" branch, a guard containing `&&` or `||` anywhere is never
narrowed (the state passes through unchanged), and otherwise narrowing
happens exactly when the matcher recognises a single equality/inequality, in
which case the operator is inverted (`==` ↔ `!=`) and the inverted constraint
is applied. -/
theorem C3_no_branch_inverted_constraint :
    (∀ (vars : List Variable) (state : NodeState) (expression : String),
      (hasSubstr expression "&&" = true ∨ hasSubstr expression "||" = true) →
      applyExpression state expression false vars = state) ∧
    (∀ (vars : List Variable) (state : NodeState) (expression : String),
      findEq expression = none →
      applyExpression state expression false vars = state) ∧
    (∀ (vars : List Variable) (state : NodeState)
        (expression varName val : String) (op : Op),
      jsTrim expression ≠ "" →
      hasSubstr expression "&&" = false →
      hasSubstr expression "||" = false →
      findEq expression = some (varName, op, val) →
      applyExpression state expression false vars =
        applyConstraint state (jsTrim varName)
          (match op with | Op.eq => Op.ne | Op.ne => Op.eq) val vars) := by
  refine ⟨?_, ?_, ?_⟩
  · intro vars state expression hcompound
    unfold applyExpression
    by_cases ht : jsTrim expression = ""
    · simp [ht]
    · have hor : (hasSubstr expression "&&" || hasSubstr expression "||") = true := by
        rcases hcompound with h | h <;> simp [h]
      simp [ht, hor]
  · intro vars state expression hnone
    unfold applyExpression
    by_cases ht : jsTrim expression = ""
    · simp [ht]
    · by_cases hc : (hasSubstr expression "&&" || hasSubstr expression "||") = true
      · simp [ht, hc]
      · simp [ht, hc, hnone]
  · intro vars state expression varName val op ht hamp hor hmatch
    unfold applyExpression
    rw [if_neg ht]
    simp only [Bool.false_eq_true, if_false, hamp, hor, Bool.or_self, hmatch]

/-- C3 witness: a compound guard passes through unchanged on the "no" branch,
and a simple equality guard is applied with the inverted operator, removing
`HIGH` from `Temp`'s set. -/
theorem C3_no_branch_inverted_constraint_witness :
    applyExpression (initState demoVars) "Temp == HIGH && Mode == ON" false
      demoVars = initState demoVars ∧
    applyExpression (initState demoVars) "Temp == HIGH" false demoVars =
      applyConstraint (initState demoVars) (jsTrim "Temp") Op.ne "HIGH"
        demoVars ∧
    (applyExpression (initState demoVars) "Temp == HIGH" false
      demoVars).lookup "v1" = some ({"LOW"} : Finset String) := by
  refine ⟨?_, ?_, by decide⟩
  · exact C3_no_branch_inverted_constraint.1 demoVars (initState demoVars)
      "Temp == HIGH && Mode == ON" (Or.inl (by decide))
  · exact C3_no_branch_inverted_constraint.2.2 demoVars (initState demoVars)
      "Temp == HIGH" "Temp" "HIGH" Op.eq (by decide) (by decide) (by decide)
      (by decide)

end DTA
